import Mathlib

/-!
Verification of the Merit proof-of-growth reward engine, referral
serialization and lottery reservoir against their specification.

The embedding follows the source files:
* `src/pog/reward.cpp` — `RewardAmbassadors`,
  `ComputeTotalInviteLotteryWinners`, `RewardInvites`;
* `src/primitives/referral.h` — `SerializeReferral`, `UnserializeReferral`,
  the `MutableReferral` record and its content hash;
* `src/refdb.h` — the lottery reservoir types (`LotteryEntrant`,
  `LotteryUndo`); the bodies of `AddAddressToLottery` and
  `UndoLotteryEntrant` live in `refdb.cpp`, which is not part of the
  sources, so those two operations are modelled from the specification.

Machine integers (`CAmount` = `int64_t`, C++ `int`) are modelled as `Int`;
C++ `/` on integers truncates toward zero, which is `Int.tdiv`.  Overflow
is outside the scope of the claims treated here.  The `double` arithmetic
of the reward step in `RewardAmbassadors` is modelled exactly: values are
exact rationals and every conversion and arithmetic operation is followed
by IEEE-754 binary64 round-to-nearest, ties-to-even (`roundB64`).
-/

namespace pog

/-- Addresses (`uint160`) are 20-byte identifiers; modelled as byte lists. -/
abbrev Address := List Nat

/-- Record `referral::AddressANV` from `src/refdb.h`: an address together with its
accumulated network value (`CAmount anv`). -/
structure AddressANV where
  address_type : Nat
  address : Address
  anv : Int
deriving DecidableEq, Repr

/-- Record `pog::AmbassadorReward` from `src/pog/reward.h`: one payout entry. -/
structure AmbassadorReward where
  address_type : Nat
  address : Address
  amount : Int
deriving DecidableEq, Repr

/-- Record `pog::AmbassadorLottery`: the filtered reward list plus the remainder
of the pool that was not distributed. -/
structure AmbassadorLottery where
  winners : List AmbassadorReward
  remainder : Int
deriving DecidableEq, Repr

/-- Exponent of the IEEE-754 binary64 rounding grid at magnitude `x`: for
normal magnitudes the representable values around `x` are spaced
`2 ^ (⌊log₂ x⌋ - 52)` apart; below the normal range the spacing is the
fixed subnormal spacing `2 ^ (-1074)`. -/
def ulpExp (x : ℚ) : ℤ := max (Int.log 2 x - 52) (-1074)

/-- Round-to-nearest, ties-to-even, of a positive rational onto the
binary64 grid.  (The finite exponent range's overflow threshold `2^1024`
is never reached by the computations treated here, so no infinity
case is modelled.) -/
def roundPos (x : ℚ) : ℚ :=
  if 2 * (x - ⌊x / 2 ^ ulpExp x⌋ * 2 ^ ulpExp x) < 2 ^ ulpExp x then
    ⌊x / 2 ^ ulpExp x⌋ * 2 ^ ulpExp x
  else if (2:ℚ) ^ ulpExp x < 2 * (x - ⌊x / 2 ^ ulpExp x⌋ * 2 ^ ulpExp x) then
    (⌊x / 2 ^ ulpExp x⌋ + 1) * 2 ^ ulpExp x
  else if Even ⌊x / 2 ^ ulpExp x⌋ then ⌊x / 2 ^ ulpExp x⌋ * 2 ^ ulpExp x
  else (⌊x / 2 ^ ulpExp x⌋ + 1) * 2 ^ ulpExp x

/-- IEEE-754 binary64 rounding (round-to-nearest, ties-to-even) of an
exact rational value: the rounding the C++ `double` arithmetic of
`reward.cpp` applies after every conversion and arithmetic operation. -/
def roundB64 (x : ℚ) : ℚ :=
  if x = 0 then 0 else if 0 < x then roundPos x else -roundPos (-x)

/-- C++ conversion from `double` back to `CAmount`: truncation toward
zero. -/
def truncQ (x : ℚ) : ℤ := if 0 ≤ x then ⌊x⌋ else ⌈x⌉

/-- The per-winner reward expression of `src/pog/reward.cpp` line 36,
`CAmount reward = (total_reward * percent) / fixed_precision;`, carried
out in IEEE-754 binary64: `total_reward` is converted to `double`
(rounded), multiplied by the `double` `percent` — itself the converted
value of the integer share of line 35 — with the product rounded,
divided by the converted `fixed_precision` with the quotient rounded,
and the result truncated back to `CAmount`. -/
def doubleReward (total_reward percent_int fixed_precision : Int) : Int :=
  truncQ (roundB64 (roundB64 (roundB64 (total_reward : ℚ) *
    roundB64 (percent_int : ℚ)) / roundB64 (fixed_precision : ℚ)))

/-- Function `pog::RewardAmbassadors` from `src/pog/reward.cpp` (lines 14-65).

`fixed_precision` is `100` below block 16000 and `1000` from it on
(line 22).  `total_anv` accumulates the winners' ANVs (lines 24-29).  For
each winner the source computes
`double percent = (v.anv*fixed_precision) / total_anv;` — both operands
are `CAmount`, so this is C++ integer division whose exact result is then
converted to `double` — and
`CAmount reward = (total_reward * percent) / fixed_precision;`, the
binary64 multiply/divide-and-truncate modelled by `doubleReward`.
Entries with non-positive amount are filtered out (lines 41-47) and the
remainder is the undistributed part of the pool (line 59). -/
def RewardAmbassadors (height : Int) (winners : List AddressANV)
    (total_reward : Int) : AmbassadorLottery :=
  let fixed_precision : Int := if height < 16000 then 100 else 1000
  let total_anv : Int := winners.foldl (fun acc v => acc + v.anv) 0
  let rewards : List AmbassadorReward := winners.map (fun v =>
    let percent : Int := Int.tdiv (v.anv * fixed_precision) total_anv
    let reward : Int := doubleReward total_reward percent fixed_precision
    { address_type := v.address_type, address := v.address, amount := reward })
  let filtered_rewards := rewards.filter (fun r => 0 < r.amount)
  let total_rewarded : Int :=
    filtered_rewards.foldl (fun acc r => acc + r.amount) 0
  { winners := filtered_rewards, remainder := total_reward - total_rewarded }

/-- Record `pog::InviteLotteryParams` from `src/pog/reward.h`: the rolling
invite statistics for the observation window. -/
structure InviteLotteryParams where
  invites_created : Int
  invites_used : Int
deriving DecidableEq, Repr

/-- The slice of `Consensus::Params` read by
`ComputeTotalInviteLotteryWinners`: the Daedalus deployment start block,
the block window and the maximum invites per block. -/
structure ConsensusParams where
  daedalus_start_block : Int
  daedalus_block_window : Int
  daedalus_max_invites_per_block : Int
deriving DecidableEq, Repr

/-- Function `pog::ComputeTotalInviteLotteryWinners` from `src/pog/reward.cpp`
(lines 67-107).  `period` is C++ truncating division (line 73).  Below one
full period the configured maximum is returned (lines 76-78).  When no
invites were used, the result is `1` or `0` depending on whether any were
created (lines 82-96).  Otherwise the velocity is
`min(invites_used*100 / invites_created, 100)`, guarded so that the
division only runs when `invites_created > 0` (lines 98-101), and the
result is `(max * velocity) / 100` (line 103).  The `assert` statements of
the source are invariants proved below, not modelled as failures. -/
def ComputeTotalInviteLotteryWinners (height : Int)
    (lottery : InviteLotteryParams) (params : ConsensusParams) : Int :=
  let period : Int :=
    Int.tdiv (height - params.daedalus_start_block) params.daedalus_block_window
  if period < 1 then
    params.daedalus_max_invites_per_block
  else if lottery.invites_used = 0 then
    (if lottery.invites_created = 0 then 1 else 0)
  else
    let scaled_invites_used : Int := lottery.invites_used * 100
    let velocity : Int :=
      if 0 < lottery.invites_created then
        min (Int.tdiv scaled_invites_used lottery.invites_created) 100
      else 100
    Int.tdiv (params.daedalus_max_invites_per_block * velocity) 100

/-- Record `referral::ConfirmedAddress` as consumed by `RewardInvites`: the
address data of one confirmed lottery winner. -/
structure ConfirmedAddress where
  address_type : Nat
  address : Address
deriving DecidableEq, Repr

/-- Record `pog::InviteReward` from `src/pog/reward.h`: an invite allotment. -/
structure InviteReward where
  address_type : Nat
  address : Address
  invites : Int
deriving DecidableEq, Repr

/-- Function `pog::RewardInvites` from `src/pog/reward.cpp` (lines 109-127): each
confirmed winner receives `INVITES_PER_WINNER = 1` invite. -/
def RewardInvites (winners : List ConfirmedAddress) : List InviteReward :=
  let INVITES_PER_WINNER : Int := 1
  winners.map (fun winner =>
    { address_type := winner.address_type
      address := winner.address
      invites := INVITES_PER_WINNER })

end pog

namespace pog

/-- Helper: the source's truncating division in the velocity branch agrees
with euclidean division once operands are nonnegative. -/
lemma tdiv_le_of_le_mul {a b : Int} (ha : 0 ≤ a)
    (hle : a ≤ b * 100) : Int.tdiv a 100 ≤ b := by
  rw [Int.tdiv_eq_ediv ha (by norm_num)]
  calc a / 100 ≤ (b * 100) / 100 := Int.ediv_le_ediv (by norm_num) hle
    _ = b := Int.mul_ediv_cancel b (by norm_num)

/-- C5: `ComputeTotalInviteLotteryWinners` returns the configured maximum
invites per block whenever
`period = (height - start_block) / block_window < 1`; otherwise, when no
invites were used it returns `1` if none were created and `0` if some
were created. -/
theorem computeTotalInviteLotteryWinners_bootstrap_starved
    (height : Int) (lottery : InviteLotteryParams) (params : ConsensusParams) :
    (Int.tdiv (height - params.daedalus_start_block)
        params.daedalus_block_window < 1 →
      ComputeTotalInviteLotteryWinners height lottery params =
        params.daedalus_max_invites_per_block) ∧
    (1 ≤ Int.tdiv (height - params.daedalus_start_block)
        params.daedalus_block_window →
      lottery.invites_used = 0 →
      ((lottery.invites_created = 0 →
          ComputeTotalInviteLotteryWinners height lottery params = 1) ∧
       (0 < lottery.invites_created →
          ComputeTotalInviteLotteryWinners height lottery params = 0))) := by
  unfold ComputeTotalInviteLotteryWinners
  refine ⟨fun h => ?_, fun h hused => ⟨fun hc => ?_, fun hc => ?_⟩⟩
  · rw [if_pos h]
  · rw [if_neg (by omega), if_pos hused, if_pos hc]
  · rw [if_neg (by omega), if_pos hused, if_neg (by omega)]

/-- Witness for C5 at concrete inputs: the bootstrap branch at height 10
(window 100, start 0, maximum 25) and the starved branches one window in. -/
theorem computeTotalInviteLotteryWinners_bootstrap_starved_witness :
    ComputeTotalInviteLotteryWinners 10 ⟨0, 0⟩ ⟨0, 100, 25⟩ = 25 ∧
    ComputeTotalInviteLotteryWinners 150 ⟨0, 0⟩ ⟨0, 100, 25⟩ = 1 ∧
    ComputeTotalInviteLotteryWinners 150 ⟨7, 0⟩ ⟨0, 100, 25⟩ = 0 := by
  refine ⟨?_, ?_, ?_⟩
  · exact (computeTotalInviteLotteryWinners_bootstrap_starved 10 ⟨0, 0⟩
      ⟨0, 100, 25⟩).1 (by decide)
  · exact ((computeTotalInviteLotteryWinners_bootstrap_starved 150 ⟨0, 0⟩
      ⟨0, 100, 25⟩).2 (by decide) rfl).1 rfl
  · exact ((computeTotalInviteLotteryWinners_bootstrap_starved 150 ⟨7, 0⟩
      ⟨0, 100, 25⟩).2 (by decide) rfl).2 (by decide)

/-- C9: when at least one full window has elapsed, invites were used but
none were created, the division by `invites_created` is guarded: the
velocity is taken to be `100` and the configured maximum is returned. -/
theorem computeTotalInviteLotteryWinners_zero_created
    (height : Int) (lottery : InviteLotteryParams) (params : ConsensusParams)
    (hperiod : 1 ≤ Int.tdiv (height - params.daedalus_start_block)
        params.daedalus_block_window)
    (hused : 0 < lottery.invites_used)
    (hcreated : lottery.invites_created = 0) :
    ComputeTotalInviteLotteryWinners height lottery params =
      params.daedalus_max_invites_per_block := by
  unfold ComputeTotalInviteLotteryWinners
  rw [if_neg (by omega), if_neg (by omega)]
  dsimp only
  rw [if_neg (by omega)]
  exact Int.mul_tdiv_cancel _ (by norm_num)

/-- Witness for C9: one window in, 5 invites used, none created. -/
theorem computeTotalInviteLotteryWinners_zero_created_witness :
    ComputeTotalInviteLotteryWinners 150 ⟨0, 5⟩ ⟨0, 100, 25⟩ = 25 :=
  computeTotalInviteLotteryWinners_zero_created 150 ⟨0, 5⟩ ⟨0, 100, 25⟩
    (by decide) (by decide) rfl

/-- C6: in the steady regime (at least one full window elapsed and some
invites used) the function returns
`(max * min(invites_used*100 / invites_created, 100)) / 100` whenever
`invites_created > 0`; using exactly as many invites as were created
yields the maximum; and for a nonnegative configured maximum the result
always lies in `[0, max]`. -/
theorem computeTotalInviteLotteryWinners_velocity
    (height : Int) (lottery : InviteLotteryParams) (params : ConsensusParams)
    (hperiod : 1 ≤ Int.tdiv (height - params.daedalus_start_block)
        params.daedalus_block_window)
    (hused : 0 < lottery.invites_used) :
    (0 < lottery.invites_created →
      ComputeTotalInviteLotteryWinners height lottery params =
        Int.tdiv (params.daedalus_max_invites_per_block *
          min (Int.tdiv (lottery.invites_used * 100) lottery.invites_created)
            100) 100) ∧
    (lottery.invites_used = lottery.invites_created →
      ComputeTotalInviteLotteryWinners height lottery params =
        params.daedalus_max_invites_per_block) ∧
    (0 ≤ params.daedalus_max_invites_per_block →
      0 ≤ ComputeTotalInviteLotteryWinners height lottery params ∧
      ComputeTotalInviteLotteryWinners height lottery params ≤
        params.daedalus_max_invites_per_block) := by
  unfold ComputeTotalInviteLotteryWinners
  rw [if_neg (by omega), if_neg (by omega)]
  dsimp only
  refine ⟨fun hc => ?_, fun heq => ?_, fun hmax => ?_⟩
  · rw [if_pos hc]
  · have hc : 0 < lottery.invites_created := heq ▸ hused
    rw [if_pos hc, ← heq, Int.mul_tdiv_cancel_left _ (by omega), min_self]
    exact Int.mul_tdiv_cancel _ (by norm_num)
  · by_cases hc : 0 < lottery.invites_created
    · rw [if_pos hc]
      have hv0 : 0 ≤ min (Int.tdiv (lottery.invites_used * 100)
          lottery.invites_created) 100 :=
        le_min (Int.tdiv_nonneg (by positivity) (le_of_lt hc)) (by norm_num)
      have hv100 : min (Int.tdiv (lottery.invites_used * 100)
          lottery.invites_created) 100 ≤ 100 := min_le_right _ _
      refine ⟨Int.tdiv_nonneg (mul_nonneg hmax hv0) (by norm_num), ?_⟩
      exact tdiv_le_of_le_mul (mul_nonneg hmax hv0) (by nlinarith)
    · rw [if_neg hc]
      constructor
      · exact Int.tdiv_nonneg (by positivity) (by norm_num)
      · rw [Int.mul_tdiv_cancel _ (by norm_num)]

/-- Witness for C6: one window in, 30 of 60 created invites used with
maximum 25 gives velocity 50 percent and 12 winners. -/
theorem computeTotalInviteLotteryWinners_velocity_witness :
    ComputeTotalInviteLotteryWinners 150 ⟨60, 30⟩ ⟨0, 100, 25⟩ =
      Int.tdiv (25 * min (Int.tdiv (30 * 100) 60) 100) 100 ∧
    ComputeTotalInviteLotteryWinners 150 ⟨30, 30⟩ ⟨0, 100, 25⟩ = 25 ∧
    (0 ≤ ComputeTotalInviteLotteryWinners 150 ⟨60, 30⟩ ⟨0, 100, 25⟩ ∧
     ComputeTotalInviteLotteryWinners 150 ⟨60, 30⟩ ⟨0, 100, 25⟩ ≤ 25) := by
  refine ⟨?_, ?_, ?_⟩
  · exact (computeTotalInviteLotteryWinners_velocity 150 ⟨60, 30⟩ ⟨0, 100, 25⟩
      (by decide) (by decide)).1 (by decide)
  · exact (computeTotalInviteLotteryWinners_velocity 150 ⟨30, 30⟩ ⟨0, 100, 25⟩
      (by decide) (by decide)).2.1 rfl
  · exact (computeTotalInviteLotteryWinners_velocity 150 ⟨60, 30⟩ ⟨0, 100, 25⟩
      (by decide) (by decide)).2.2 (by decide)

/-- C8: `RewardInvites` on `N` confirmed winners returns exactly `N`
entries and every entry carries exactly one invite. -/
theorem rewardInvites_length_and_one_invite
    (winners : List ConfirmedAddress) :
    (RewardInvites winners).length = winners.length ∧
    ∀ r ∈ RewardInvites winners, r.invites = 1 := by
  refine ⟨by simp [RewardInvites], ?_⟩
  intro r hr
  simp only [RewardInvites, List.mem_map] at hr
  obtain ⟨w, _, rfl⟩ := hr
  rfl

/-- Witness for C8 on a concrete two-winner list. -/
theorem rewardInvites_length_and_one_invite_witness :
    (RewardInvites [⟨1, [5]⟩, ⟨2, [9]⟩]).length =
      ([⟨1, [5]⟩, ⟨2, [9]⟩] : List ConfirmedAddress).length ∧
    ∀ r ∈ RewardInvites [⟨1, [5]⟩, ⟨2, [9]⟩], r.invites = 1 :=
  rewardInvites_length_and_one_invite [⟨1, [5]⟩, ⟨2, [9]⟩]

/-- C10: on an empty winners list `RewardAmbassadors` returns an empty
rewards list and a remainder equal to the whole pool, for every height
and every total reward; the per-winner division by `total_anv` is never
executed because the mapped list is empty, so `total_anv = 0` is
harmless here. -/
theorem rewardAmbassadors_empty
    (height total_reward : Int) :
    RewardAmbassadors height [] total_reward =
      { winners := [], remainder := total_reward } := by
  simp [RewardAmbassadors]

end pog

namespace pog

/-- Sum of two euclidean quotients is at most the quotient of the sum. -/
lemma ediv_add_ediv_le {a b d : Int} (hd : 0 < d) :
    a / d + b / d ≤ (a + b) / d := by
  rw [Int.le_ediv_iff_mul_le hd, add_mul]
  nlinarith [Int.ediv_add_emod a d, Int.ediv_add_emod b d,
    Int.emod_nonneg a (ne_of_gt hd), Int.emod_nonneg b (ne_of_gt hd)]

/-- Folding addition of a projection (the `std::accumulate` pattern of the
source) equals the initial value plus the sum of the mapped list. -/
lemma foldl_add_proj {α : Type} (f : α → Int) (l : List α) (a : Int) :
    l.foldl (fun acc x => acc + f x) a = a + (l.map f).sum := by
  induction l generalizing a with
  | nil => simp
  | cons x xs ih => simp [ih, add_assoc]

/-- Summing truncating quotients of nonnegative values is bounded by the
quotient of the sum. -/
lemma sum_tdiv_le {α : Type} (f : α → Int) (d : Int) (hd : 0 < d)
    (l : List α) (h : ∀ x ∈ l, 0 ≤ f x) :
    (l.map (fun x => Int.tdiv (f x) d)).sum ≤
      Int.tdiv ((l.map f).sum) d := by
  induction l with
  | nil => simp
  | cons x xs ih =>
    have hx : 0 ≤ f x := h x (List.mem_cons_self x xs)
    have hxs : ∀ y ∈ xs, 0 ≤ f y := fun y hy => h y (List.mem_cons_of_mem x hy)
    have hs : 0 ≤ (xs.map f).sum := List.sum_nonneg (by
      intro z hz
      obtain ⟨y, hy, rfl⟩ := List.mem_map.1 hz
      exact hxs y hy)
    have hall : 0 ≤ f x + (xs.map f).sum := by linarith
    simp only [List.map_cons, List.sum_cons]
    calc Int.tdiv (f x) d + (xs.map (fun x => Int.tdiv (f x) d)).sum
        ≤ Int.tdiv (f x) d + Int.tdiv ((xs.map f).sum) d := by
          have := ih hxs; linarith
      _ = f x / d + (xs.map f).sum / d := by
          rw [Int.tdiv_eq_ediv hx (le_of_lt hd),
            Int.tdiv_eq_ediv hs (le_of_lt hd)]
      _ ≤ (f x + (xs.map f).sum) / d := ediv_add_ediv_le hd
      _ = Int.tdiv (f x + (xs.map f).sum) d :=
          (Int.tdiv_eq_ediv hall (le_of_lt hd)).symm

/-- Filtering a list of nonnegative amounts down to its positive entries
does not change the total amount. -/
lemma sum_filter_pos_amount (l : List AmbassadorReward)
    (h : ∀ r ∈ l, 0 ≤ r.amount) :
    ((l.filter (fun r => 0 < r.amount)).map (fun r => r.amount)).sum =
      (l.map (fun r => r.amount)).sum := by
  induction l with
  | nil => simp
  | cons x xs ih =>
    have hx : 0 ≤ x.amount := h x (List.mem_cons_self x xs)
    have hxs : ∀ r ∈ xs, 0 ≤ r.amount :=
      fun r hr => h r (List.mem_cons_of_mem x hr)
    by_cases hpos : 0 < x.amount
    · rw [List.filter_cons_of_pos (by simpa using hpos)]
      simp [ih hxs]
    · have hz : x.amount = 0 := le_antisymm (not_lt.mp hpos) hx
      rw [List.filter_cons_of_neg (by simpa using hpos)]
      simp [ih hxs, hz]

/-- Core bounds on the per-winner reward map of `RewardAmbassadors`: with
positive precision `P`, positive total ANV `A` covering every winner's
(nonnegative) ANV, and a nonnegative pool `tR`, every computed amount
lies in `[0, tR]` and the amounts sum to at most `tR`. -/
lemma rewardAmbassadors_core (P A tR : Int) (hP : 0 < P) (hA : 0 < A)
    (htR : 0 ≤ tR) (ws : List AddressANV)
    (hanv : ∀ v ∈ ws, 0 ≤ v.anv)
    (hsum : (ws.map (fun v => v.anv)).sum = A) :
    (∀ r ∈ ws.map (fun v =>
        ({ address_type := v.address_type, address := v.address,
           amount := Int.tdiv (tR * Int.tdiv (v.anv * P) A) P } :
          AmbassadorReward)),
      0 ≤ r.amount ∧ r.amount ≤ tR) ∧
    ((ws.map (fun v =>
        ({ address_type := v.address_type, address := v.address,
           amount := Int.tdiv (tR * Int.tdiv (v.anv * P) A) P } :
          AmbassadorReward))).map (fun r => r.amount)).sum ≤ tR := by
  constructor
  · intro r hr
    obtain ⟨v, hv, rfl⟩ := List.mem_map.1 hr
    have hv0 : 0 ≤ v.anv := hanv v hv
    have hvA : v.anv ≤ A := by
      rw [← hsum]
      refine List.single_le_sum ?_ _ (List.mem_map_of_mem _ hv)
      intro z hz
      obtain ⟨y, hy, rfl⟩ := List.mem_map.1 hz
      exact hanv y hy
    have hper0 : 0 ≤ Int.tdiv (v.anv * P) A :=
      Int.tdiv_nonneg (mul_nonneg hv0 (le_of_lt hP)) (le_of_lt hA)
    have hperP : Int.tdiv (v.anv * P) A ≤ P := by
      rw [Int.tdiv_eq_ediv (mul_nonneg hv0 (le_of_lt hP)) (le_of_lt hA)]
      calc v.anv * P / A ≤ A * P / A :=
            Int.ediv_le_ediv hA (mul_le_mul_of_nonneg_right hvA (le_of_lt hP))
        _ = P := Int.mul_ediv_cancel_left P (ne_of_gt hA)
    refine ⟨Int.tdiv_nonneg (mul_nonneg htR hper0) (le_of_lt hP), ?_⟩
    rw [Int.tdiv_eq_ediv (mul_nonneg htR hper0) (le_of_lt hP)]
    calc tR * Int.tdiv (v.anv * P) A / P ≤ tR * P / P :=
          Int.ediv_le_ediv hP (mul_le_mul_of_nonneg_left hperP htR)
      _ = tR := Int.mul_ediv_cancel tR (ne_of_gt hP)
  · rw [List.map_map]
    have hm : ((fun r : AmbassadorReward => r.amount) ∘ (fun v : AddressANV =>
        ({ address_type := v.address_type, address := v.address,
           amount := Int.tdiv (tR * Int.tdiv (v.anv * P) A) P } :
          AmbassadorReward))) =
        fun v => Int.tdiv (tR * Int.tdiv (v.anv * P) A) P := rfl
    rw [hm]
    have hstep1 : (ws.map (fun v =>
          Int.tdiv (tR * Int.tdiv (v.anv * P) A) P)).sum ≤
        Int.tdiv ((ws.map (fun v => tR * Int.tdiv (v.anv * P) A)).sum) P :=
      sum_tdiv_le (fun v => tR * Int.tdiv (v.anv * P) A) P hP ws
        (fun v hv => mul_nonneg htR
          (Int.tdiv_nonneg (mul_nonneg (hanv v hv) (le_of_lt hP)) (le_of_lt hA)))
    have hpull : (ws.map (fun v => tR * Int.tdiv (v.anv * P) A)).sum =
        tR * (ws.map (fun v => Int.tdiv (v.anv * P) A)).sum :=
      List.sum_map_mul_left ws (fun v => Int.tdiv (v.anv * P) A) tR
    have hsump0 : 0 ≤ (ws.map (fun v => Int.tdiv (v.anv * P) A)).sum :=
      List.sum_nonneg (by
        intro z hz
        obtain ⟨v, hv, rfl⟩ := List.mem_map.1 hz
        exact Int.tdiv_nonneg (mul_nonneg (hanv v hv) (le_of_lt hP)) (le_of_lt hA))
    have hsump : (ws.map (fun v => Int.tdiv (v.anv * P) A)).sum ≤ P := by
      have h1 : (ws.map (fun v => Int.tdiv (v.anv * P) A)).sum ≤
          Int.tdiv ((ws.map (fun v => v.anv * P)).sum) A :=
        sum_tdiv_le (fun v => v.anv * P) A hA ws
          (fun v hv => mul_nonneg (hanv v hv) (le_of_lt hP))
      have h2 : (ws.map (fun v => v.anv * P)).sum = A * P := by
        rw [List.sum_map_mul_right, hsum]
      rw [h2, Int.tdiv_eq_ediv (mul_nonneg (le_of_lt hA) (le_of_lt hP))
        (le_of_lt hA), Int.mul_ediv_cancel_left P (ne_of_gt hA)] at h1
      exact h1
    calc (ws.map (fun v => Int.tdiv (tR * Int.tdiv (v.anv * P) A) P)).sum
        ≤ Int.tdiv ((ws.map (fun v => tR * Int.tdiv (v.anv * P) A)).sum) P :=
          hstep1
      _ = Int.tdiv (tR * (ws.map (fun v => Int.tdiv (v.anv * P) A)).sum) P := by
          rw [hpull]
      _ = tR * (ws.map (fun v => Int.tdiv (v.anv * P) A)).sum / P :=
          Int.tdiv_eq_ediv (mul_nonneg htR hsump0) (le_of_lt hP)
      _ ≤ tR * P / P := Int.ediv_le_ediv hP (mul_le_mul_of_nonneg_left hsump htR)
      _ = tR := Int.mul_ediv_cancel tR (ne_of_gt hP)

end pog

namespace pog

/-- The rounding grid spacing is positive. -/
lemma ulp_pos (x : ℚ) : (0:ℚ) < 2 ^ ulpExp x := zpow_pos (by norm_num) _

/-- Evaluation rule for `roundPos` once the enclosing grid cell of `x`
is known. -/
lemma roundPos_eval (x : ℚ) (u n : ℤ) (hu : ulpExp x = u)
    (h1 : (n:ℚ) * 2 ^ u ≤ x) (h2 : x < ((n:ℚ) + 1) * 2 ^ u) :
    roundPos x =
      if 2 * (x - (n:ℚ) * 2 ^ u) < 2 ^ u then (n:ℚ) * 2 ^ u
      else if (2:ℚ) ^ u < 2 * (x - (n:ℚ) * 2 ^ u) then ((n:ℚ) + 1) * 2 ^ u
      else if Even n then (n:ℚ) * 2 ^ u else ((n:ℚ) + 1) * 2 ^ u := by
  have hg : (0:ℚ) < 2 ^ u := zpow_pos (by norm_num) u
  have hfl : ⌊x / 2 ^ u⌋ = n := by
    rw [Int.floor_eq_iff]
    exact ⟨(le_div_iff₀ hg).2 (by linarith), (div_lt_iff₀ hg).2 (by linarith)⟩
  unfold roundPos
  rw [hu, hfl]

/-- Rounding in the lower half of a grid cell goes down. -/
lemma roundPos_eval_down (x : ℚ) (u n : ℤ) (hu : ulpExp x = u)
    (h1 : (n:ℚ) * 2 ^ u ≤ x) (h2 : x < ((n:ℚ) + 1) * 2 ^ u)
    (hc : 2 * (x - (n:ℚ) * 2 ^ u) < 2 ^ u) :
    roundPos x = (n:ℚ) * 2 ^ u := by
  rw [roundPos_eval x u n hu h1 h2, if_pos hc]

/-- Rounding in the upper half of a grid cell goes up. -/
lemma roundPos_eval_up (x : ℚ) (u n : ℤ) (hu : ulpExp x = u)
    (h1 : (n:ℚ) * 2 ^ u ≤ x) (h2 : x < ((n:ℚ) + 1) * 2 ^ u)
    (hc : (2:ℚ) ^ u < 2 * (x - (n:ℚ) * 2 ^ u)) :
    roundPos x = ((n:ℚ) + 1) * 2 ^ u := by
  rw [roundPos_eval x u n hu h1 h2, if_neg (by linarith), if_pos hc]

/-- A tie at an odd grid index rounds up to the even neighbour. -/
lemma roundPos_eval_tie_odd (x : ℚ) (u n : ℤ) (hu : ulpExp x = u)
    (h1 : (n:ℚ) * 2 ^ u ≤ x) (h2 : x < ((n:ℚ) + 1) * 2 ^ u)
    (hc : 2 * (x - (n:ℚ) * 2 ^ u) = 2 ^ u) (hodd : ¬ Even n) :
    roundPos x = ((n:ℚ) + 1) * 2 ^ u := by
  rw [roundPos_eval x u n hu h1 h2, if_neg (by linarith), if_neg (by linarith),
    if_neg hodd]

/-- Determination of the grid exponent from a power-of-two bracket. -/
lemma ulpExp_eq_of (x : ℚ) (e : ℤ) (h1 : (2:ℚ) ^ e ≤ x) (h2 : x < 2 ^ (e + 1))
    (h3 : (-1022:ℤ) ≤ e) : ulpExp x = e - 52 := by
  have hx : 0 < x := lt_of_lt_of_le (zpow_pos (by norm_num) e) h1
  have h1' : ((2:ℕ):ℚ) ^ e ≤ x := by exact_mod_cast h1
  have h2' : x < ((2:ℕ):ℚ) ^ (e + 1) := by exact_mod_cast h2
  have ha := (Int.zpow_le_iff_le_log (by norm_num) hx).1 h1'
  have hb := (Int.lt_zpow_iff_log_lt (by norm_num) hx).1 h2'
  unfold ulpExp
  omega

/-- Rounding moves a value by at most half a grid spacing. -/
lemma roundPos_sub_le (x : ℚ) : |roundPos x - x| ≤ 2 ^ ulpExp x / 2 := by
  have hg : (0:ℚ) < 2 ^ ulpExp x := ulp_pos x
  have h1 : (↑⌊x / 2 ^ ulpExp x⌋ : ℚ) * 2 ^ ulpExp x ≤ x := by
    calc (↑⌊x / 2 ^ ulpExp x⌋ : ℚ) * 2 ^ ulpExp x
        ≤ x / 2 ^ ulpExp x * 2 ^ ulpExp x :=
          mul_le_mul_of_nonneg_right (Int.floor_le _) (le_of_lt hg)
      _ = x := div_mul_cancel₀ x (ne_of_gt hg)
  have h2 : x < ((↑⌊x / 2 ^ ulpExp x⌋ : ℚ) + 1) * 2 ^ ulpExp x := by
    calc x = x / 2 ^ ulpExp x * 2 ^ ulpExp x :=
          (div_mul_cancel₀ x (ne_of_gt hg)).symm
      _ < ((↑⌊x / 2 ^ ulpExp x⌋ : ℚ) + 1) * 2 ^ ulpExp x :=
          mul_lt_mul_of_pos_right (Int.lt_floor_add_one _) hg
  unfold roundPos
  rw [abs_le]
  split_ifs with hc1 hc2 hc3 <;> constructor <;> linarith

/-- Values lying on the rounding grid are rounded to themselves. -/
lemma roundPos_eq_self (x : ℚ) (k : ℤ) (hk : x = (k:ℚ) * 2 ^ ulpExp x) :
    roundPos x = x := by
  have hg : (0:ℚ) < 2 ^ ulpExp x := ulp_pos x
  have h2 : x < ((k:ℚ) + 1) * 2 ^ ulpExp x := by nlinarith [hk, hg]
  rw [roundPos_eval x (ulpExp x) k rfl (le_of_eq hk.symm) h2,
    if_pos (by linarith)]
  exact hk.symm

/-- Integers of magnitude below `2^53` are exactly representable. -/
lemma roundPos_intCast (m : ℤ) (h0 : 0 < m) (h : m < 2 ^ 53) :
    roundPos (m : ℚ) = (m : ℚ) := by
  have hx0 : (0:ℚ) < (m:ℚ) := by exact_mod_cast h0
  have hlog0 : 0 ≤ Int.log 2 (m:ℚ) := by
    have h1 : ((2:ℕ):ℚ) ^ (0:ℤ) ≤ (m:ℚ) := by
      rw [zpow_zero]
      exact_mod_cast h0
    exact (Int.zpow_le_iff_le_log (by norm_num) hx0).1 h1
  have hlog52 : Int.log 2 (m:ℚ) ≤ 52 := by
    have hm' : m < 9007199254740992 := by norm_num at h; exact h
    have h2 : (m:ℚ) < ((2:ℕ):ℚ) ^ (53:ℤ) := by
      rw [show ((2:ℕ):ℚ) ^ (53:ℤ) = 9007199254740992 by norm_num]
      exact_mod_cast hm'
    have := (Int.lt_zpow_iff_log_lt (by norm_num) hx0).1 h2
    omega
  have hu : ulpExp (m:ℚ) = Int.log 2 (m:ℚ) - 52 := by unfold ulpExp; omega
  apply roundPos_eq_self (m:ℚ) (m * 2 ^ (52 - Int.log 2 (m:ℚ)).toNat)
  rw [hu]
  push_cast
  rw [mul_assoc, ← zpow_natCast (2:ℚ) (52 - Int.log 2 (m:ℚ)).toNat,
    ← zpow_add₀ (by norm_num : (2:ℚ) ≠ 0),
    Int.toNat_of_nonneg (by omega : (0:ℤ) ≤ 52 - Int.log 2 (m:ℚ)),
    show 52 - Int.log 2 (m:ℚ) + (Int.log 2 (m:ℚ) - 52) = 0 by ring,
    zpow_zero, mul_one]

/-- IEEE-754 rounding is exact on machine integers below `2^53` in
magnitude. -/
lemma roundB64_intCast (m : ℤ) (hlow : -(2 ^ 53) < m) (hhigh : m < 2 ^ 53) :
    roundB64 (m : ℚ) = (m : ℚ) := by
  rcases lt_trichotomy 0 m with hm | rfl | hm
  · rw [roundB64, if_neg (Int.cast_ne_zero.2 (by omega)),
      if_pos (by exact_mod_cast hm)]
    exact roundPos_intCast m hm hhigh
  · simp [roundB64]
  · rw [roundB64, if_neg (Int.cast_ne_zero.2 (by omega)),
      if_neg (not_lt.2 (by exact_mod_cast le_of_lt hm)),
      show -((m:ℤ):ℚ) = (((-m):ℤ):ℚ) by push_cast; ring,
      roundPos_intCast (-m) (by omega) (by omega)]
    push_cast
    ring

/-- Above the subnormal threshold, the grid spacing times `2^52` is below
the value itself. -/
lemma ulp_grid_le (x : ℚ) (hx : (2:ℚ) ^ (-(1022):ℤ) ≤ x) :
    2 ^ ulpExp x * 2 ^ (52:ℕ) ≤ x := by
  have hx0 : 0 < x := lt_of_lt_of_le (zpow_pos (by norm_num) _) hx
  have hx' : ((2:ℕ):ℚ) ^ (-(1022):ℤ) ≤ x := by exact_mod_cast hx
  have hlog : -(1022:ℤ) ≤ Int.log 2 x :=
    (Int.zpow_le_iff_le_log (by norm_num) hx0).1 hx'
  have hu : ulpExp x = Int.log 2 x - 52 := by unfold ulpExp; omega
  rw [hu, ← zpow_natCast (2:ℚ) 52, ← zpow_add₀ (by norm_num : (2:ℚ) ≠ 0),
    show Int.log 2 x - 52 + ((52:ℕ):ℤ) = Int.log 2 x by push_cast; ring]
  exact_mod_cast Int.zpow_log_le_self (b := 2) (by norm_num) hx0

/-- Truncating the rounded quotient of an integer below `2^53` by a
positive integer divisor recovers exact integer division: the rounding
error of the binary64 division is smaller than the distance from the
exact quotient to the nearest integers. -/
lemma truncQ_roundB64_div (a P : ℤ) (ha : 0 ≤ a) (hlt : a < 2 ^ 53)
    (hP : 0 < P) (hPle : P ≤ 2 ^ 53) :
    truncQ (roundB64 ((a : ℚ) / (P : ℚ))) = a / P := by
  have hP0 : (0:ℚ) < (P:ℚ) := by exact_mod_cast hP
  rcases eq_or_lt_of_le ha with rfl | ha0
  · rw [show ((0:ℤ):ℚ) / (P:ℚ) = 0 by simp,
      show roundB64 0 = 0 by simp [roundB64],
      show truncQ 0 = 0 by simp [truncQ]]
    simp
  have ha1 : (1:ℚ) ≤ (a:ℚ) := by exact_mod_cast ha0
  set q : ℚ := (a:ℚ) / (P:ℚ) with hqdef
  have hq0 : 0 < q := div_pos (by exact_mod_cast ha0) hP0
  have hround : roundB64 q = roundPos q := by
    rw [roundB64, if_neg (ne_of_gt hq0), if_pos hq0]
  have hqP : q * (P:ℚ) = (a:ℚ) := div_mul_cancel₀ _ (ne_of_gt hP0)
  have hclamp : (2:ℚ) ^ (-(1022):ℤ) ≤ q := by
    have s1 : (2:ℚ) ^ (-(1022):ℤ) ≤ (2:ℚ) ^ (-(53):ℤ) :=
      zpow_le_zpow_right₀ (by norm_num) (by norm_num)
    have s2 : (2:ℚ) ^ (-(53):ℤ) ≤ 1 / (P:ℚ) := by
      rw [zpow_neg, ← one_div]
      apply one_div_le_one_div_of_le hP0
      rw [show ((2:ℚ) ^ (53:ℤ)) = 9007199254740992 by norm_num]
      have : P ≤ 9007199254740992 := by norm_num at hPle; exact hPle
      exact_mod_cast this
    have s3 : 1 / (P:ℚ) ≤ q := by
      rw [hqdef]
      exact (div_le_div_right hP0).2 ha1
    exact le_trans s1 (le_trans s2 s3)
  have hgrid := ulp_grid_le q hclamp
  have hgP : 2 ^ ulpExp q * (P:ℚ) < 2 := by
    have t1 : 2 ^ ulpExp q * 2 ^ (52:ℕ) * (P:ℚ) ≤ q * (P:ℚ) :=
      mul_le_mul_of_nonneg_right hgrid (le_of_lt hP0)
    rw [hqP] at t1
    have ha' : a < 9007199254740992 := by norm_num at hlt; exact hlt
    have t2 : (a:ℚ) < 2 ^ (53:ℕ) := by
      rw [show ((2:ℚ) ^ (53:ℕ)) = 9007199254740992 by norm_num]
      exact_mod_cast ha'
    have t3 : 2 ^ ulpExp q * (P:ℚ) * 2 ^ (52:ℕ) < 2 * 2 ^ (52:ℕ) := by
      calc 2 ^ ulpExp q * (P:ℚ) * 2 ^ (52:ℕ)
          = 2 ^ ulpExp q * 2 ^ (52:ℕ) * (P:ℚ) := by ring
        _ ≤ (a:ℚ) := t1
        _ < 2 ^ (53:ℕ) := t2
        _ = 2 * 2 ^ (52:ℕ) := by norm_num
    exact lt_of_mul_lt_mul_right t3 (by positivity)
  have herr := roundPos_sub_le q
  have hhalf : 2 ^ ulpExp q / 2 < 1 / (P:ℚ) := by
    rw [div_lt_div_iff (by norm_num) hP0]
    linarith
  have hfs : P * (a / P) + a % P = a := Int.ediv_add_emod a P
  have hs0 : 0 ≤ a % P := Int.emod_nonneg a (ne_of_gt hP)
  have hsP : a % P < P := Int.emod_lt_of_pos a hP
  have hf0 : 0 ≤ a / P := Int.ediv_nonneg ha (le_of_lt hP)
  have hfle : a / P ≤ a := Int.ediv_le_self _ ha
  have hq_split : q = ((a / P : ℤ):ℚ) + ((a % P : ℤ):ℚ) / (P:ℚ) := by
    rw [hqdef, show (a:ℚ) = (P:ℚ) * ((a / P : ℤ):ℚ) + ((a % P : ℤ):ℚ) by
      exact_mod_cast congrArg (fun z : ℤ => (z:ℚ)) hfs.symm]
    field_simp
    ring
  by_cases hse : a % P = 0
  · have hq_eq : q = ((a / P : ℤ):ℚ) := by
      rw [hq_split, hse]
      simp
    rw [hq_eq, roundB64_intCast (a / P) (by omega) (by omega)]
    unfold truncQ
    rw [if_pos (by positivity), Int.floor_intCast]
  · have hs1 : 1 ≤ a % P := by omega
    have hsp_lb : (1:ℚ) / (P:ℚ) ≤ ((a % P : ℤ):ℚ) / (P:ℚ) :=
      (div_le_div_right hP0).2 (by exact_mod_cast hs1)
    have hsp_ub : ((a % P : ℤ):ℚ) / (P:ℚ) ≤ 1 - 1 / (P:ℚ) := by
      have hle : ((a % P : ℤ):ℚ) ≤ (P:ℚ) - 1 := by
        exact_mod_cast (by omega : a % P ≤ P - 1)
      calc ((a % P : ℤ):ℚ) / (P:ℚ) ≤ ((P:ℚ) - 1) / (P:ℚ) :=
            (div_le_div_right hP0).2 hle
        _ = 1 - 1 / (P:ℚ) := by field_simp
    have habs := abs_le.1 herr
    have hr_gt : ((a / P : ℤ):ℚ) < roundPos q := by
      have : ((a / P : ℤ):ℚ) + 1 / (P:ℚ) ≤ q := by rw [hq_split]; linarith
      linarith
    have hr_lt : roundPos q < ((a / P : ℤ):ℚ) + 1 := by
      have : q ≤ ((a / P : ℤ):ℚ) + 1 - 1 / (P:ℚ) := by rw [hq_split]; linarith
      linarith
    rw [hround]
    unfold truncQ
    rw [if_pos (by
      have : (0:ℚ) ≤ ((a / P : ℤ):ℚ) := by exact_mod_cast hf0
      linarith)]
    rw [Int.floor_eq_iff]
    exact ⟨le_of_lt hr_gt, hr_lt⟩

/-- The ANV share is at most the precision constant. -/
lemma percent_le (P A anv : Int) (hP : 0 < P) (hA : 0 < A)
    (h0 : 0 ≤ anv) (hle : anv ≤ A) : Int.tdiv (anv * P) A ≤ P := by
  rw [Int.tdiv_eq_ediv (mul_nonneg h0 (le_of_lt hP)) (le_of_lt hA)]
  calc anv * P / A ≤ A * P / A :=
        Int.ediv_le_ediv hA (mul_le_mul_of_nonneg_right hle (le_of_lt hP))
    _ = P := Int.mul_ediv_cancel_left P (ne_of_gt hA)

/-- When every binary64 intermediate stays below `2^53`, the double
pipeline of `reward.cpp` line 36 computes the exact integer formula
`floor(total_reward * percent / fixed_precision)`. -/
lemma doubleReward_eq_int (tR pc P : Int) (htR : 0 ≤ tR) (hpc0 : 0 ≤ pc)
    (hpcP : pc ≤ P) (hP : 0 < P) (hPle : P ≤ 1000)
    (hbound : tR * 1000 < 2 ^ 53) :
    doubleReward tR pc P = Int.tdiv (tR * pc) P := by
  have htR53 : tR < 2 ^ 53 := by nlinarith
  have hpc1000 : pc ≤ 1000 := le_trans hpcP hPle
  have hpc53 : pc < 2 ^ 53 := by
    calc pc ≤ 1000 := hpc1000
      _ < 2 ^ 53 := by norm_num
  have hP53 : P < 2 ^ 53 := by
    calc P ≤ 1000 := hPle
      _ < 2 ^ 53 := by norm_num
  have hprod0 : 0 ≤ tR * pc := mul_nonneg htR hpc0
  have hprod53 : tR * pc < 2 ^ 53 := by nlinarith
  unfold doubleReward
  rw [roundB64_intCast tR (by omega) htR53,
    roundB64_intCast pc (by omega) hpc53,
    roundB64_intCast P (by omega) hP53,
    ← Int.cast_mul,
    roundB64_intCast (tR * pc) (by omega) hprod53,
    truncQ_roundB64_div (tR * pc) P hprod0 hprod53 hP (by
      calc P ≤ 1000 := hPle
        _ ≤ 2 ^ 53 := by norm_num)]
  exact (Int.tdiv_eq_ediv hprod0 (le_of_lt hP)).symm

end pog

namespace pog

/-- Counterexample to C2 as stated: the claim quantifies over every
winners list with positive total ANV, but with a negative individual ANV
(`[-1, 2]`, total ANV `1 > 0`) and pool `100 ≥ 0` the computed reward of
the second winner is `200 > 100` and the remainder is `-100 < 0`, so
"every reward is at most the pool" and "the remainder is nonnegative"
both fail.  (On these inputs the C++ `assert(reward <= total_reward)`
would abort.) -/
theorem rewardAmbassadors_negative_anv_counterexample :
    (0:Int) < ([⟨1, [], -1⟩, ⟨1, [], 2⟩] : List AddressANV).foldl
      (fun acc v => acc + v.anv) 0 ∧
    (0:Int) ≤ 100 ∧
    (∃ r ∈ (RewardAmbassadors 0 [⟨1, [], -1⟩, ⟨1, [], 2⟩] 100).winners,
      (100:Int) < r.amount) ∧
    (RewardAmbassadors 0 [⟨1, [], -1⟩, ⟨1, [], 2⟩] 100).remainder < 0 := by
  have e1 : doubleReward 100 (-100) 100 = -100 := by
    unfold doubleReward
    rw [roundB64_intCast 100 (by norm_num) (by norm_num),
      roundB64_intCast (-100) (by norm_num) (by norm_num),
      show ((100:ℤ):ℚ) * ((-100:ℤ):ℚ) = ((-10000:ℤ):ℚ) by push_cast; norm_num,
      roundB64_intCast (-10000) (by norm_num) (by norm_num),
      show ((-10000:ℤ):ℚ) / ((100:ℤ):ℚ) = ((-100:ℤ):ℚ) by push_cast; norm_num,
      roundB64_intCast (-100) (by norm_num) (by norm_num)]
    unfold truncQ
    rw [if_neg (by push_cast; norm_num), Int.ceil_intCast]
  have e2 : doubleReward 100 200 100 = 200 := by
    unfold doubleReward
    rw [roundB64_intCast 100 (by norm_num) (by norm_num),
      roundB64_intCast 200 (by norm_num) (by norm_num),
      show ((100:ℤ):ℚ) * ((200:ℤ):ℚ) = ((20000:ℤ):ℚ) by push_cast; norm_num,
      roundB64_intCast 20000 (by norm_num) (by norm_num),
      show ((20000:ℤ):ℚ) / ((100:ℤ):ℚ) = ((200:ℤ):ℚ) by push_cast; norm_num,
      roundB64_intCast 200 (by norm_num) (by norm_num)]
    unfold truncQ
    rw [if_pos (by push_cast; norm_num), Int.floor_intCast]
  have hre : RewardAmbassadors 0 [⟨1, [], -1⟩, ⟨1, [], 2⟩] 100 =
      { winners :=
          ([(⟨1, [], doubleReward 100 (-100) 100⟩ : AmbassadorReward),
            (⟨1, [], doubleReward 100 200 100⟩ : AmbassadorReward)]).filter
            (fun r => 0 < r.amount),
        remainder := 100 -
          (([(⟨1, [], doubleReward 100 (-100) 100⟩ : AmbassadorReward),
             (⟨1, [], doubleReward 100 200 100⟩ : AmbassadorReward)]).filter
             (fun r => 0 < r.amount)).foldl (fun acc r => acc + r.amount) 0 } :=
    rfl
  rw [hre, e1, e2]
  decide

/-- C2 (amended with the data-model invariant that individual ANVs are
nonnegative, and with the pool bounded so that every binary64
intermediate of the double reward step stays below `2^53` and is
therefore exact): for every winners list of nonnegative ANVs with
positive total ANV and every nonnegative pool with
`total_reward * 1000 < 2^53`, every reward is at most the pool, the
rewards plus the remainder sum to the pool, the remainder lies in
`[0, pool]`, and no zero-amount entry appears in the output. -/
theorem rewardAmbassadors_invariants (height : Int)
    (winners : List AddressANV) (total_reward : Int)
    (hanv : ∀ v ∈ winners, 0 ≤ v.anv)
    (htotal : 0 < winners.foldl (fun acc v => acc + v.anv) 0)
    (hreward : 0 ≤ total_reward)
    (hbound : total_reward * 1000 < 2 ^ 53) :
    (∀ r ∈ (RewardAmbassadors height winners total_reward).winners,
        r.amount ≤ total_reward) ∧
    ((RewardAmbassadors height winners total_reward).winners.foldl
        (fun acc r => acc + r.amount) 0) +
      (RewardAmbassadors height winners total_reward).remainder =
        total_reward ∧
    0 ≤ (RewardAmbassadors height winners total_reward).remainder ∧
    (RewardAmbassadors height winners total_reward).remainder ≤
      total_reward ∧
    (∀ r ∈ (RewardAmbassadors height winners total_reward).winners,
        r.amount ≠ 0) := by
  have hP : (0:Int) < if height < 16000 then 100 else 1000 := by
    split <;> norm_num
  have hsum : (winners.map (fun v => v.anv)).sum =
      winners.foldl (fun acc v => acc + v.anv) 0 := by
    rw [foldl_add_proj (fun v => v.anv) winners 0, zero_add]
  have hcore := rewardAmbassadors_core
    (if height < 16000 then 100 else 1000)
    (winners.foldl (fun acc v => acc + v.anv) 0)
    total_reward hP htotal hreward winners hanv hsum
  have hre : RewardAmbassadors height winners total_reward =
      { winners := (winners.map (fun v =>
          ({ address_type := v.address_type, address := v.address,
             amount := doubleReward total_reward
               (Int.tdiv (v.anv * (if height < 16000 then 100 else 1000))
                 (winners.foldl (fun acc v => acc + v.anv) 0))
               (if height < 16000 then 100 else 1000) } :
            AmbassadorReward))).filter (fun r => 0 < r.amount),
        remainder := total_reward -
          ((winners.map (fun v =>
            ({ address_type := v.address_type, address := v.address,
               amount := doubleReward total_reward
                 (Int.tdiv (v.anv * (if height < 16000 then 100 else 1000))
                   (winners.foldl (fun acc v => acc + v.anv) 0))
                 (if height < 16000 then 100 else 1000) } :
              AmbassadorReward))).filter (fun r => 0 < r.amount)).foldl
            (fun acc r => acc + r.amount) 0 } := rfl
  have hmapeq : winners.map (fun v =>
      ({ address_type := v.address_type, address := v.address,
         amount := doubleReward total_reward
           (Int.tdiv (v.anv * (if height < 16000 then 100 else 1000))
             (winners.foldl (fun acc v => acc + v.anv) 0))
           (if height < 16000 then 100 else 1000) } : AmbassadorReward)) =
      winners.map (fun v =>
      ({ address_type := v.address_type, address := v.address,
         amount := Int.tdiv (total_reward *
           Int.tdiv (v.anv * (if height < 16000 then 100 else 1000))
             (winners.foldl (fun acc v => acc + v.anv) 0))
           (if height < 16000 then 100 else 1000) } : AmbassadorReward)) := by
    apply List.map_congr_left
    intro v hv
    have hv0 : 0 ≤ v.anv := hanv v hv
    have hvA : v.anv ≤ winners.foldl (fun acc v => acc + v.anv) 0 := by
      rw [← hsum]
      refine List.single_le_sum ?_ _ (List.mem_map_of_mem _ hv)
      intro z hz
      obtain ⟨y, hy, rfl⟩ := List.mem_map.1 hz
      exact hanv y hy
    have hPle : (if height < (16000:Int) then (100:Int) else 1000) ≤ 1000 := by
      split <;> norm_num
    have hpc0 : 0 ≤ Int.tdiv (v.anv * (if height < 16000 then 100 else 1000))
        (winners.foldl (fun acc v => acc + v.anv) 0) :=
      Int.tdiv_nonneg (mul_nonneg hv0 (le_of_lt hP)) (le_of_lt htotal)
    have hpcP := percent_le (if height < 16000 then 100 else 1000)
      (winners.foldl (fun acc v => acc + v.anv) 0) v.anv hP htotal hv0 hvA
    rw [AmbassadorReward.mk.injEq]
    exact ⟨rfl, rfl,
      doubleReward_eq_int total_reward _ _ hreward hpc0 hpcP hP hPle hbound⟩
  rw [hre, hmapeq]
  set rewards : List AmbassadorReward := winners.map (fun v =>
    ({ address_type := v.address_type, address := v.address,
       amount := Int.tdiv (total_reward *
         Int.tdiv (v.anv * (if height < 16000 then 100 else 1000))
           (winners.foldl (fun acc v => acc + v.anv) 0))
         (if height < 16000 then 100 else 1000) } :
      AmbassadorReward)) with hrewards
  have hmemrange : ∀ r ∈ rewards, 0 ≤ r.amount ∧ r.amount ≤ total_reward :=
    hcore.1
  have hfoldfilter : (rewards.filter (fun r => 0 < r.amount)).foldl
      (fun acc r => acc + r.amount) 0 =
      ((rewards.filter (fun r => 0 < r.amount)).map (fun r => r.amount)).sum := by
    rw [foldl_add_proj (fun r : AmbassadorReward => r.amount)
      (rewards.filter (fun r => 0 < r.amount)) 0, zero_add]
  have hfiltersum : ((rewards.filter (fun r => 0 < r.amount)).map
      (fun r => r.amount)).sum = (rewards.map (fun r => r.amount)).sum :=
    sum_filter_pos_amount rewards (fun r hr => (hmemrange r hr).1)
  have hsumle : (rewards.map (fun r => r.amount)).sum ≤ total_reward :=
    hcore.2
  have hsumnn : 0 ≤ (rewards.map (fun r => r.amount)).sum :=
    List.sum_nonneg (by
      intro z hz
      obtain ⟨r, hr, rfl⟩ := List.mem_map.1 hz
      exact (hmemrange r hr).1)
  refine ⟨?_, ?_, ?_, ?_, ?_⟩
  · intro r hr
    exact (hmemrange r (List.mem_filter.1 hr).1).2
  · simp only [hfoldfilter, hfiltersum]
    ring
  · simp only [hfoldfilter, hfiltersum]
    linarith
  · simp only [hfoldfilter, hfiltersum]
    linarith
  · intro r hr
    have := (List.mem_filter.1 hr).2
    have hpos : 0 < r.amount := by simpa using this
    omega

/-- Witness for C2 (amended) at the spec's own scenario: winners with
ANVs 600 and 400, pool 1000 (far below the `2^53` exactness bound),
height 20000 (precision 1000). -/
theorem rewardAmbassadors_invariants_witness :
    (∀ r ∈ (RewardAmbassadors 20000 [⟨1, [1], 600⟩, ⟨1, [2], 400⟩]
        1000).winners, r.amount ≤ 1000) ∧
    ((RewardAmbassadors 20000 [⟨1, [1], 600⟩, ⟨1, [2], 400⟩]
        1000).winners.foldl (fun acc r => acc + r.amount) 0) +
      (RewardAmbassadors 20000 [⟨1, [1], 600⟩, ⟨1, [2], 400⟩]
        1000).remainder = 1000 ∧
    0 ≤ (RewardAmbassadors 20000 [⟨1, [1], 600⟩, ⟨1, [2], 400⟩]
        1000).remainder ∧
    (RewardAmbassadors 20000 [⟨1, [1], 600⟩, ⟨1, [2], 400⟩]
        1000).remainder ≤ 1000 ∧
    (∀ r ∈ (RewardAmbassadors 20000 [⟨1, [1], 600⟩, ⟨1, [2], 400⟩]
        1000).winners, r.amount ≠ 0) :=
  rewardAmbassadors_invariants 20000 [⟨1, [1], 600⟩, ⟨1, [2], 400⟩] 1000
    (by decide) (by decide) (by decide) (by decide)

/-- C1 (code bug at `reward.cpp` line 36): at height 16000 (precision
1000), with a single winner of ANV 1 (total ANV 1, integer share 1000)
and pool `2^53 + 3 = 9007199254740995`, the binary64 reward pipeline
pays `2^53 + 4 = 9007199254740996` — one more than the whole pool, and
not the exact integer formula's value, which is the pool itself (third
conjunct): converting the pool to `double` already rounds it up to
`2^53 + 4` (a tie resolved to the even mantissa).  The remainder comes
out `-1`, and the source's own `assert(reward <= total_reward)` fires
on this input. -/
theorem rewardAmbassadors_float_divergence :
    (RewardAmbassadors 16000 [⟨1, [], 1⟩] 9007199254740995).winners =
      [(⟨1, [], 9007199254740996⟩ : AmbassadorReward)] ∧
    (RewardAmbassadors 16000 [⟨1, [], 1⟩] 9007199254740995).remainder = -1 ∧
    Int.tdiv (9007199254740995 * Int.tdiv (1 * 1000) 1) 1000 =
      9007199254740995 := by
  have h1000 : roundB64 ((1000:ℤ):ℚ) = ((1000:ℤ):ℚ) :=
    roundB64_intCast 1000 (by norm_num) (by norm_num)
  have hcvt : roundB64 ((9007199254740995:ℤ):ℚ) =
      ((9007199254740996:ℤ):ℚ) := by
    unfold roundB64
    rw [if_neg (by push_cast; norm_num), if_pos (by push_cast; norm_num)]
    have hu : ulpExp ((9007199254740995:ℤ):ℚ) = 1 := by
      have h := ulpExp_eq_of ((9007199254740995:ℤ):ℚ) 53
        (by push_cast; norm_num) (by push_cast; norm_num) (by norm_num)
      omega
    rw [roundPos_eval_tie_odd ((9007199254740995:ℤ):ℚ) 1 4503599627370497 hu
      (by push_cast; norm_num) (by push_cast; norm_num)
      (by push_cast; norm_num) (by decide)]
    push_cast
    norm_num
  have hprod : roundB64 (((9007199254740996:ℤ):ℚ) * ((1000:ℤ):ℚ)) =
      ((9007199254740996096:ℤ):ℚ) := by
    rw [show ((9007199254740996:ℤ):ℚ) * ((1000:ℤ):ℚ) =
        ((9007199254740996000:ℤ):ℚ) by push_cast; norm_num]
    unfold roundB64
    rw [if_neg (by push_cast; norm_num), if_pos (by push_cast; norm_num)]
    have hu : ulpExp ((9007199254740996000:ℤ):ℚ) = 10 := by
      have h := ulpExp_eq_of ((9007199254740996000:ℤ):ℚ) 62
        (by push_cast; norm_num) (by push_cast; norm_num) (by norm_num)
      omega
    rw [roundPos_eval_up ((9007199254740996000:ℤ):ℚ) 10 8796093022208003 hu
      (by push_cast; norm_num) (by push_cast; norm_num)
      (by push_cast; norm_num)]
    push_cast
    norm_num
  have hquot : roundB64 (((9007199254740996096:ℤ):ℚ) / ((1000:ℤ):ℚ)) =
      ((9007199254740996:ℤ):ℚ) := by
    unfold roundB64
    rw [if_neg (by push_cast; norm_num), if_pos (by push_cast; norm_num)]
    have hu : ulpExp (((9007199254740996096:ℤ):ℚ) / ((1000:ℤ):ℚ)) = 1 := by
      have h := ulpExp_eq_of (((9007199254740996096:ℤ):ℚ) / ((1000:ℤ):ℚ)) 53
        (by push_cast; norm_num) (by push_cast; norm_num) (by norm_num)
      omega
    rw [roundPos_eval_down (((9007199254740996096:ℤ):ℚ) / ((1000:ℤ):ℚ)) 1
      4503599627370498 hu (by push_cast; norm_num) (by push_cast; norm_num)
      (by push_cast; norm_num)]
    push_cast
    norm_num
  have hdr : doubleReward 9007199254740995 1000 1000 = 9007199254740996 := by
    unfold doubleReward
    rw [hcvt, h1000, hprod, hquot]
    unfold truncQ
    rw [if_pos (by push_cast; norm_num), Int.floor_intCast]
  have hre : RewardAmbassadors 16000 [⟨1, [], 1⟩] 9007199254740995 =
      { winners :=
          ([(⟨1, [], doubleReward 9007199254740995 1000 1000⟩ :
            AmbassadorReward)]).filter (fun r => 0 < r.amount),
        remainder := 9007199254740995 -
          (([(⟨1, [], doubleReward 9007199254740995 1000 1000⟩ :
             AmbassadorReward)]).filter
             (fun r => 0 < r.amount)).foldl (fun acc r => acc + r.amount) 0 } :=
    rfl
  rw [hre, hdr]
  exact ⟨by decide, by decide, by decide⟩

end pog

namespace referral

/-- Addresses (`referral::Address = uint160`): 20-byte identifiers. -/
abbrev Address := List Nat

/-- A list is a byte vector when every entry fits in one byte. -/
def wfBytes (l : List Nat) : Prop := ∀ b ∈ l, b < 256

/-- Modelled from the spec: the `CPubKey` public-key value carried by a
referral (`pubkey.h` is not among the sources); it is its raw byte
vector. -/
structure CPubKey where
  data : List Nat
deriving DecidableEq, Repr

/-- Modelled from the spec: `CPubKey::IsValid` — the spec requires the
pubkey to be well-formed ("on-curve / correct length") before a referral
is hashed, serialized or accepted; modelled as the correct-length check
of the reference client: a 33-byte key with header byte 2 or 3, or a
65-byte key with header byte 4, 6 or 7 (`pubkey.h` is not among the
sources). -/
def CPubKey.IsValid (pk : CPubKey) : Bool :=
  match pk.data with
  | [] => false
  | h :: t =>
    (decide (t.length = 32) && (h == 2 || h == 3)) ||
      (decide (t.length = 64) && (h == 4 || h == 6 || h == 7))

/-- Record `referral::MutableReferral` from `src/primitives/referral.h`
(lines 171-219): the mutable builder carrying the six serialized fields.
`version` is the `int32_t` field (serialized as 4 little-endian bytes),
`addressType` the `char` field (1 byte). -/
structure MutableReferral where
  version : Nat
  parentAddress : Address
  addressType : Nat
  address : Address
  pubkey : CPubKey
  signature : List Nat
deriving DecidableEq, Repr

/-- Little-endian fixed-width serialization of an unsigned value
(the `ser_writedata` primitives of `serialize.h`, not among the
sources; modelled from the spec's canonical binary encoding). -/
def serN (width value : Nat) : List Nat :=
  match width with
  | 0 => []
  | w + 1 => (value % 256) :: serN w (value / 256)

/-- Little-endian fixed-width deserialization; fails on a short stream. -/
def deserN (width : Nat) (s : List Nat) : Option (Nat × List Nat) :=
  match width with
  | 0 => some (0, s)
  | w + 1 =>
    match s with
    | [] => none
    | b :: rest =>
      match deserN w rest with
      | none => none
      | some (v, rest') => some (b + 256 * v, rest')

/-- Modelled from the spec: the canonical variable-length size prefix of
the wire encoding (`WriteCompactSize` of `serialize.h`, not among the
sources): one byte below 253, otherwise a marker byte followed by the
value in 2, 4 or 8 little-endian bytes. -/
def writeCompactSize (n : Nat) : List Nat :=
  if n < 253 then [n]
  else if n ≤ 0xFFFF then 253 :: serN 2 n
  else if n ≤ 0xFFFFFFFF then 254 :: serN 4 n
  else 255 :: serN 8 n

/-- Modelled from the spec: `ReadCompactSize` — reads the size prefix and
rejects non-canonical encodings. -/
def readCompactSize (s : List Nat) : Option (Nat × List Nat) :=
  match s with
  | [] => none
  | b :: rest =>
    if b < 253 then some (b, rest)
    else if b = 253 then
      match deserN 2 rest with
      | none => none
      | some (n, rest') => if 253 ≤ n then some (n, rest') else none
    else if b = 254 then
      match deserN 4 rest with
      | none => none
      | some (n, rest') => if 0x10000 ≤ n then some (n, rest') else none
    else
      match deserN 8 rest with
      | none => none
      | some (n, rest') => if 0x100000000 ≤ n then some (n, rest') else none

/-- Reads exactly `count` raw bytes (the fixed-width `uint160` fields). -/
def readBytes (count : Nat) (s : List Nat) : Option (List Nat × List Nat) :=
  if s.length < count then none else some (s.take count, s.drop count)

/-- Length-prefixed byte-vector serialization (`std::vector<unsigned
char>` and `CPubKey` wire form: compact size then the raw bytes). -/
def serBytes (l : List Nat) : List Nat := writeCompactSize l.length ++ l

/-- Length-prefixed byte-vector deserialization. -/
def deserBytesF (s : List Nat) : Option (List Nat × List Nat) :=
  (readCompactSize s).bind fun nr => readBytes nr.1 nr.2

/-- Function `SerializeReferral` from `src/primitives/referral.h`
(lines 48-59): the fixed field order `version, parentAddress,
addressType, address, pubkey, signature`.  The source's
`assert(ref.pubkey.IsValid())` before writing is reflected in the
well-formedness hypothesis of the claims proved about it. -/
def SerializeReferral (ref : MutableReferral) : List Nat :=
  serN 4 ref.version ++ ref.parentAddress ++ serN 1 ref.addressType ++
    ref.address ++ serBytes ref.pubkey.data ++ serBytes ref.signature

/-- The six sequential field reads of `UnserializeReferral`
(`src/primitives/referral.h` lines 38-43), before the validity check. -/
def ReadReferralFields (s : List Nat) : Option (MutableReferral × List Nat) :=
  (deserN 4 s).bind fun vs =>
  (readBytes 20 vs.2).bind fun ps =>
  (deserN 1 ps.2).bind fun ts =>
  (readBytes 20 ts.2).bind fun as_ =>
  (deserBytesF as_.2).bind fun ks =>
  (deserBytesF ks.2).bind fun gs =>
  some ({ version := vs.1, parentAddress := ps.1, addressType := ts.1,
          address := as_.1, pubkey := ⟨ks.1⟩, signature := gs.1 }, gs.2)

/-- Observable outcomes of referral deserialization besides a normal
return: `endOfData` is the stream exception thrown by a short or
malformed stream; `assertPubkeyInvalid` is the firing of
`assert(ref.pubkey.IsValid())` on line 45 of
`src/primitives/referral.h` — a process abort, not a recoverable typed
error (the source has no typed `InvalidKey` path in deserialization). -/
inductive UnserializeError
  | endOfData
  | assertPubkeyInvalid
deriving DecidableEq, Repr

/-- Function `UnserializeReferral` from `src/primitives/referral.h`
(lines 35-46) as compiled with assertions active: read the six fields in
order, then execute `assert(ref.pubkey.IsValid())`, which aborts the
process on a malformed pubkey (modelled as the `assertPubkeyInvalid`
outcome). -/
def UnserializeReferral (s : List Nat) :
    Except UnserializeError (MutableReferral × List Nat) :=
  match ReadReferralFields s with
  | none => .error .endOfData
  | some (ref, rest) =>
    if ref.pubkey.IsValid then .ok (ref, rest)
    else .error .assertPubkeyInvalid

/-- Function `UnserializeReferral` as compiled with `NDEBUG`: the
`assert` on line 45 expands to nothing, so the decoded pubkey is not
checked at all and the referral is returned as parsed. -/
def UnserializeReferralNoAssert (s : List Nat) :
    Except UnserializeError (MutableReferral × List Nat) :=
  match ReadReferralFields s with
  | none => .error .endOfData
  | some (ref, rest) => .ok (ref, rest)

/-- Modelled from the spec: the 256-bit content hash over the serialized
form (`Referral::ComputeHash` lives in `referral.cpp`, not among the
sources; the spec fixes `hash = canonicalHash(serialize(...))`).  The
digest is a stand-in pure function of the serialized bytes; everything
proved about it uses only that it is a function of the serialized
form. -/
def canonicalHash (bytes : List Nat) : Nat :=
  bytes.foldl (fun acc b => (acc * 257 + b + 1) % 2 ^ 256) 0

/-- Method `MutableReferral::GetHash`: the content hash, recomputed on
demand from the serialized form. -/
def MutableReferral.GetHash (ref : MutableReferral) : Nat :=
  canonicalHash (SerializeReferral ref)

/-- A well-formed referral: fields in their machine ranges, 20-byte
addresses, and a valid pubkey (the construction invariant of §3 of the
spec). -/
def WFReferral (ref : MutableReferral) : Prop :=
  ref.version < 2 ^ 32 ∧
  ref.parentAddress.length = 20 ∧ wfBytes ref.parentAddress ∧
  ref.addressType < 256 ∧
  ref.address.length = 20 ∧ wfBytes ref.address ∧
  CPubKey.IsValid ref.pubkey = true ∧ wfBytes ref.pubkey.data ∧
  wfBytes ref.signature ∧ ref.signature.length < 2 ^ 64

end referral

namespace referral

/-- Fixed-width little-endian roundtrip for in-range values. -/
lemma deserN_append (w v : Nat) (h : v < 256 ^ w) (rest : List Nat) :
    deserN w (serN w v ++ rest) = some (v, rest) := by
  induction w generalizing v with
  | zero =>
    have hz : v = 0 := by simpa using h
    subst hz
    simp [serN, deserN]
  | succ w ih =>
    have hdiv : v / 256 < 256 ^ w := by
      have hlt : v < 256 * 256 ^ w := by
        calc v < 256 ^ (w + 1) := h
          _ = 256 * 256 ^ w := by ring
      exact Nat.div_lt_of_lt_mul hlt
    simp [serN, deserN, ih (v / 256) hdiv, Nat.mod_add_div]

/-- Raw fixed-length byte reads split an appended prefix back off. -/
lemma readBytes_append (n : Nat) (l : List Nat) (h : l.length = n)
    (rest : List Nat) : readBytes n (l ++ rest) = some (l, rest) := by
  subst h
  unfold readBytes
  rw [if_neg (by simp only [List.length_append]; omega),
    List.take_left, List.drop_left]

/-- Compact-size roundtrip for every length below `2^64`. -/
lemma readCompactSize_append (n : Nat) (h : n < 2 ^ 64) (rest : List Nat) :
    readCompactSize (writeCompactSize n ++ rest) = some (n, rest) := by
  by_cases h1 : n < 253
  · rw [writeCompactSize, if_pos h1]
    simp [readCompactSize, h1]
  · by_cases h2 : n ≤ 0xFFFF
    · rw [writeCompactSize, if_neg h1, if_pos h2, List.cons_append]
      simp [readCompactSize, deserN_append 2 n (by norm_num; omega),
        show (253:Nat) ≤ n by omega]
    · by_cases h3 : n ≤ 0xFFFFFFFF
      · rw [writeCompactSize, if_neg h1, if_neg h2, if_pos h3,
          List.cons_append]
        simp [readCompactSize, deserN_append 4 n (by norm_num; omega),
          show (0x10000:Nat) ≤ n by omega]
      · rw [writeCompactSize, if_neg h1, if_neg h2, if_neg h3,
          List.cons_append]
        simp [readCompactSize, deserN_append 8 n (by norm_num; omega),
          show (0x100000000:Nat) ≤ n by omega]

/-- Length-prefixed byte-vector roundtrip. -/
lemma deserBytesF_append (l : List Nat) (h : l.length < 2 ^ 64)
    (rest : List Nat) : deserBytesF (serBytes l ++ rest) = some (l, rest) := by
  unfold deserBytesF serBytes
  rw [List.append_assoc, readCompactSize_append l.length h (l ++ rest),
    Option.some_bind]
  exact readBytes_append l.length l rfl rest

/-- Length-prefixed byte-vector roundtrip at the end of the stream. -/
lemma deserBytesF_nil (l : List Nat) (h : l.length < 2 ^ 64) :
    deserBytesF (serBytes l) = some (l, []) := by
  have := deserBytesF_append l h []
  rwa [List.append_nil] at this

/-- A valid pubkey is 33 or 65 bytes long. -/
lemma CPubKey.isValid_length {pk : CPubKey} (h : pk.IsValid = true) :
    pk.data.length = 33 ∨ pk.data.length = 65 := by
  obtain ⟨data⟩ := pk
  cases data with
  | nil => simp [CPubKey.IsValid] at h
  | cons b t =>
    simp only [CPubKey.IsValid, Bool.or_eq_true, Bool.and_eq_true,
      decide_eq_true_eq] at h
    rcases h with ⟨h1, _⟩ | ⟨h1, _⟩ <;> simp [h1]

/-- Reading back a serialized well-formed referral recovers every field
and consumes the whole stream. -/
lemma readReferralFields_roundtrip (ref : MutableReferral)
    (h : WFReferral ref) :
    ReadReferralFields (SerializeReferral ref) = some (ref, []) := by
  obtain ⟨hv, hpl, -, hat, hal, -, hpk, -, -, hsl⟩ := h
  have hv' : ref.version < 256 ^ 4 := by norm_num at hv ⊢; omega
  have hat' : ref.addressType < 256 ^ 1 := by norm_num; omega
  have hpklen : ref.pubkey.data.length < 2 ^ 64 := by
    rcases CPubKey.isValid_length hpk with hL | hL <;> rw [hL] <;> norm_num
  simp only [SerializeReferral, ReadReferralFields, List.append_assoc,
    deserN_append 4 ref.version hv', Option.some_bind,
    readBytes_append 20 ref.parentAddress hpl,
    deserN_append 1 ref.addressType hat',
    readBytes_append 20 ref.address hal,
    deserBytesF_append ref.pubkey.data hpklen,
    deserBytesF_nil ref.signature hsl]

/-- Concrete malformed referral used as the C4 failing input: the parsed
pubkey is the single byte `0`, which fails validation. -/
def invalidKeyRef : MutableReferral :=
  { version := 0, parentAddress := List.replicate 20 0, addressType := 1,
    address := List.replicate 20 0, pubkey := ⟨[0]⟩, signature := [] }

/-- Serialized 48-byte stream of `invalidKeyRef` (built by hand, since
`SerializeReferral` refuses invalid pubkeys in the source). -/
def invalidKeyStream : List Nat :=
  List.replicate 4 0 ++ List.replicate 20 0 ++ [1] ++
    List.replicate 20 0 ++ [1, 0] ++ [0]

/-- C4 (code bug at `referral.h` line 45): on the concrete 48-byte
stream the six fields decode and the pubkey fails validation, yet the
source produces no typed `InvalidKey` failure: with assertions active
the `assert(ref.pubkey.IsValid())` fires — a process abort — and
compiled with `NDEBUG` the check vanishes and the malformed referral is
accepted as parsed. -/
theorem unserializeReferral_assert_bug :
    ReadReferralFields invalidKeyStream = some (invalidKeyRef, []) ∧
    CPubKey.IsValid invalidKeyRef.pubkey = false ∧
    UnserializeReferral invalidKeyStream =
      Except.error UnserializeError.assertPubkeyInvalid ∧
    UnserializeReferralNoAssert invalidKeyStream =
      Except.ok (invalidKeyRef, []) :=
  ⟨by decide, by decide, rfl, rfl⟩

/-- C7: serializing a well-formed referral in the fixed field order and
deserializing the result yields the original referral, equal in every
field, consuming the whole stream; and the content hash of the
roundtripped referral equals the original's hash (the hash is a pure
function of the serialized form). -/
theorem serializeReferral_roundtrip (ref : MutableReferral)
    (h : WFReferral ref) :
    UnserializeReferral (SerializeReferral ref) = Except.ok (ref, []) ∧
    ∀ ref' rest,
      UnserializeReferral (SerializeReferral ref) = Except.ok (ref', rest) →
      MutableReferral.GetHash ref' = MutableReferral.GetHash ref := by
  have hpk : CPubKey.IsValid ref.pubkey = true := h.2.2.2.2.2.2.1
  have hok : UnserializeReferral (SerializeReferral ref) =
      Except.ok (ref, []) := by
    unfold UnserializeReferral
    rw [readReferralFields_roundtrip ref h]
    simp [hpk]
  refine ⟨hok, fun ref' rest heq => ?_⟩
  rw [hok] at heq
  simp only [Except.ok.injEq, Prod.mk.injEq] at heq
  rw [← heq.1]

/-- Concrete well-formed referral used as the C7 witness input: a
33-byte compressed pubkey with header byte 2. -/
def exampleReferral : MutableReferral :=
  { version := 7, parentAddress := List.replicate 20 3, addressType := 1,
    address := List.replicate 20 5, pubkey := ⟨2 :: List.replicate 32 9⟩,
    signature := [4, 4] }

/-- Witness for C7 on the concrete referral. -/
theorem serializeReferral_roundtrip_witness :
    UnserializeReferral (SerializeReferral exampleReferral) =
      Except.ok (exampleReferral, []) ∧
    ∀ ref' rest,
      UnserializeReferral (SerializeReferral exampleReferral) =
        Except.ok (ref', rest) →
      MutableReferral.GetHash ref' = MutableReferral.GetHash exampleReferral :=
  serializeReferral_roundtrip exampleReferral
    (by unfold WFReferral wfBytes; decide)

end referral

namespace referral

/-- Weighted sampling keys (`pog::WeightedKey` of `pog/wrs.h`), opaque
values compared by order; modelled as naturals. -/
abbrev WeightedKey := Nat

/-- Tuple `referral::LotteryEntrant = (pog::WeightedKey, char, Address)`
from `src/refdb.h` (line 25). -/
structure LotteryEntrant where
  key : WeightedKey
  address_type : Nat
  address : Address
deriving DecidableEq, Repr

/-- Record `referral::LotteryUndo` from `src/refdb.h` (lines 43-59): the
evicted (or inserted) entry together with the address that replaced it;
`replaced_with` is empty (`none`) for a plain insertion that evicted
nothing. -/
structure LotteryUndo where
  replaced_key : WeightedKey
  replaced_address_type : Nat
  replaced_address : Address
  replaced_with : Option Address
deriving DecidableEq, Repr

/-- Order of the reservoir's key index (`reservoir-entries` are "ordered
by the weighted key for min-lookup", spec §6). -/
def entrantLE (a b : LotteryEntrant) : Prop := a.key ≤ b.key

instance : DecidableRel entrantLE := fun a b => Nat.decLe a.key b.key

instance : IsTotal LotteryEntrant entrantLE := ⟨fun a b => Nat.le_total a.key b.key⟩

instance : IsTrans LotteryEntrant entrantLE := ⟨fun _ _ _ => Nat.le_trans⟩

/-- Modelled from the spec: `ReferralsViewDB::InsertLotteryEntrant`
(declared in `src/refdb.h` line 103, body in `refdb.cpp`, not among the
sources) — inserting into the key-ordered reservoir index. -/
def InsertLotteryEntrant (e : LotteryEntrant) (s : List LotteryEntrant) :
    List LotteryEntrant :=
  List.orderedInsert entrantLE e s

/-- Modelled from the spec: `ReferralsViewDB::RemoveFromLottery`
(declared in `src/refdb.h` line 109, body in `refdb.cpp`, not among the
sources) — point removal of the entry holding the given address. -/
def RemoveFromLottery (a : Address) : List LotteryEntrant → List LotteryEntrant
  | [] => []
  | x :: xs => if x.address = a then xs else x :: RemoveFromLottery a xs

/-- Modelled from the spec: `ReferralsViewDB::AddAddressToLottery`
(declared in `src/refdb.h` lines 89-94, body in `refdb.cpp`, not among
the sources).  Spec §4.2: "if reservoir size < max, insert directly and
record an undo entry with `replacedWith` empty; else compare against
current minimum key — if greater, evict the minimum (recording its full
entry in the undo) and insert the new entry; otherwise discard with no
mutation and no undo entry."  The state is the key-ordered reservoir, so
the current minimum is its head.  Returns the new reservoir and the
generated undo record, if any. -/
def AddAddressToLottery (key : WeightedKey) (address_type : Nat)
    (address : Address) (max_reservoir_size : Nat)
    (s : List LotteryEntrant) : List LotteryEntrant × Option LotteryUndo :=
  if s.length < max_reservoir_size then
    (InsertLotteryEntrant ⟨key, address_type, address⟩ s,
     some ⟨key, address_type, address, none⟩)
  else
    match s with
    | [] => ([], none)
    | m :: rest =>
      if m.key < key then
        (InsertLotteryEntrant ⟨key, address_type, address⟩ rest,
         some ⟨m.key, m.address_type, m.address, some address⟩)
      else (m :: rest, none)

/-- Modelled from the spec: `ReferralsViewDB::UndoLotteryEntrant`
(declared in `src/refdb.h` line 96, body in `refdb.cpp`, not among the
sources).  Spec §4.2: "reverses one mutation — reinsert the evicted
entry (if any) and remove the entry that was inserted". -/
def UndoLotteryEntrant (u : LotteryUndo) (s : List LotteryEntrant) :
    List LotteryEntrant :=
  match u.replaced_with with
  | none => RemoveFromLottery u.replaced_address s
  | some w =>
    InsertLotteryEntrant
      ⟨u.replaced_key, u.replaced_address_type, u.replaced_address⟩
      (RemoveFromLottery w s)

/-- One connect-time reservoir mutation: apply `AddAddressToLottery` and
append the generated undo record (the `undos` out-parameter of the
source) to the log. -/
def lotteryStep (max_reservoir_size : Nat)
    (st : List LotteryEntrant × List LotteryUndo) (e : LotteryEntrant) :
    List LotteryEntrant × List LotteryUndo :=
  let res := AddAddressToLottery e.key e.address_type e.address
    max_reservoir_size st.1
  (res.1, st.2 ++ res.2.toList)

/-- Insert a list of entrants one at a time, starting from the empty
reservoir, collecting the undo log in mutation order. -/
def runLottery (max_reservoir_size : Nat) (entrants : List LotteryEntrant) :
    List LotteryEntrant × List LotteryUndo :=
  entrants.foldl (lotteryStep max_reservoir_size) ([], [])

/-- Replay an undo log in reverse (LIFO) order. -/
def replayUndos (undos : List LotteryUndo) (s : List LotteryEntrant) :
    List LotteryEntrant :=
  undos.foldr UndoLotteryEntrant s

end referral

namespace referral

/-- Removing a freshly inserted address recovers the original reservoir
(the inserted address was not present before). -/
lemma removeFromLottery_insert (e : LotteryEntrant) (s : List LotteryEntrant)
    (h : e.address ∉ s.map (fun x => x.address)) :
    RemoveFromLottery e.address (InsertLotteryEntrant e s) = s := by
  induction s with
  | nil => simp [InsertLotteryEntrant, List.orderedInsert, RemoveFromLottery]
  | cons x xs ih =>
    simp only [InsertLotteryEntrant, List.orderedInsert]
    by_cases hle : entrantLE e x
    · rw [if_pos hle]
      simp [RemoveFromLottery]
    · rw [if_neg hle]
      have hxa : ¬ x.address = e.address := by
        intro hcontra
        exact h (by simp [← hcontra])
      have hxs : e.address ∉ xs.map (fun x => x.address) := by
        intro hm
        exact h (by simp [hm])
      simp only [RemoveFromLottery, if_neg hxa]
      exact congrArg (fun l => x :: l) (ih hxs)

/-- Reinserting the minimum of a sorted reservoir puts it back on top. -/
lemma insert_min_of_sorted (m : LotteryEntrant) (rest : List LotteryEntrant)
    (h : List.Sorted entrantLE (m :: rest)) :
    InsertLotteryEntrant m rest = m :: rest := by
  cases rest with
  | nil => rfl
  | cons y ys =>
    have hle : entrantLE m y := (List.sorted_cons.1 h).1 y (by simp)
    simp [InsertLotteryEntrant, List.orderedInsert, hle]

/-- The reservoir mutation keeps the key index sorted. -/
lemma addAddressToLottery_sorted (key : WeightedKey) (t : Nat) (addr : Address)
    (max_size : Nat) (s : List LotteryEntrant)
    (hs : List.Sorted entrantLE s) :
    List.Sorted entrantLE (AddAddressToLottery key t addr max_size s).1 := by
  unfold AddAddressToLottery
  split_ifs with h
  · exact List.Sorted.orderedInsert _ _ hs
  · cases s with
    | nil => simp
    | cons m rest =>
      by_cases hk : m.key < key
      · simp only [if_pos hk]
        exact List.Sorted.orderedInsert _ _ (List.Sorted.of_cons hs)
      · simp only [if_neg hk]
        exact hs

/-- Size evolution of one reservoir mutation: grow by one below the
capacity, otherwise unchanged. -/
lemma addAddressToLottery_length (key : WeightedKey) (t : Nat) (addr : Address)
    (max_size : Nat) (s : List LotteryEntrant) :
    (AddAddressToLottery key t addr max_size s).1.length =
      if s.length < max_size then s.length + 1 else s.length := by
  unfold AddAddressToLottery
  split_ifs with h
  · simp [InsertLotteryEntrant, List.orderedInsert_length]
  · cases s with
    | nil => simp
    | cons m rest =>
      by_cases hk : m.key < key
      · simp [hk, InsertLotteryEntrant, List.orderedInsert_length]
      · simp [hk]

/-- Any address in the mutated reservoir is the new address or one that
was already present. -/
lemma addAddressToLottery_addr_mem (key : WeightedKey) (t : Nat)
    (addr : Address) (max_size : Nat) (s : List LotteryEntrant) :
    ∀ x ∈ (AddAddressToLottery key t addr max_size s).1.map
        (fun y => y.address),
      x = addr ∨ x ∈ s.map (fun y => y.address) := by
  unfold AddAddressToLottery
  split_ifs with h
  · intro x hx
    obtain ⟨y, hy, rfl⟩ := List.mem_map.1 hx
    rcases (List.mem_orderedInsert entrantLE).1 hy with rfl | hy'
    · exact Or.inl rfl
    · exact Or.inr (List.mem_map_of_mem _ hy')
  · cases s with
    | nil => intro x hx; simp at hx
    | cons m rest =>
      by_cases hk : m.key < key
      · simp only [if_pos hk]
        intro x hx
        obtain ⟨y, hy, rfl⟩ := List.mem_map.1 hx
        rcases (List.mem_orderedInsert entrantLE).1 hy with rfl | hy'
        · exact Or.inl rfl
        · exact Or.inr (List.mem_map_of_mem _ (List.mem_cons_of_mem m hy'))
      · simp only [if_neg hk]
        intro x hx
        exact Or.inr hx

/-- Each generated undo record exactly reverses its mutation, and a
discarded candidate leaves the reservoir untouched. -/
lemma addAddressToLottery_undo (key : WeightedKey) (t : Nat) (addr : Address)
    (max_size : Nat) (s : List LotteryEntrant)
    (hs : List.Sorted entrantLE s)
    (haddr : addr ∉ s.map (fun x => x.address)) :
    (∀ u, (AddAddressToLottery key t addr max_size s).2 = some u →
      UndoLotteryEntrant u (AddAddressToLottery key t addr max_size s).1 = s) ∧
    ((AddAddressToLottery key t addr max_size s).2 = none →
      (AddAddressToLottery key t addr max_size s).1 = s) := by
  unfold AddAddressToLottery
  split_ifs with h
  · refine ⟨fun u hu => ?_, fun hu => by simp at hu⟩
    injection hu with hu2
    subst hu2
    simpa [UndoLotteryEntrant] using
      removeFromLottery_insert ⟨key, t, addr⟩ s haddr
  · cases s with
    | nil => exact ⟨fun u hu => by simp at hu, fun _ => rfl⟩
    | cons m rest =>
      by_cases hk : m.key < key
      · simp only [if_pos hk]
        refine ⟨fun u hu => ?_, fun hu => by simp at hu⟩
        injection hu with hu2
        subst hu2
        have hrest : addr ∉ rest.map (fun x => x.address) := by
          intro hm
          exact haddr (by simp [hm])
        simp only [UndoLotteryEntrant]
        rw [removeFromLottery_insert ⟨key, t, addr⟩ rest hrest]
        exact insert_min_of_sorted m rest hs
      · simp only [if_neg hk]
        exact ⟨fun u hu => by simp at hu, fun _ => by trivial⟩

end referral

namespace referral

/-- Invariant of the connect-time fold: starting from a sorted reservoir
within capacity whose addresses are disjoint from the (pairwise
distinct) incoming entrants, the fold keeps the reservoir sorted, fills
it to `min (start + count) capacity`, and the undo records generated
after the starting log, replayed in reverse, restore the starting
reservoir. -/
lemma runLottery_go (max_size : Nat) (entrants : List LotteryEntrant) :
    ∀ (s : List LotteryEntrant) (acc : List LotteryUndo),
    List.Sorted entrantLE s →
    (∀ e ∈ entrants, e.address ∉ s.map (fun x => x.address)) →
    List.Pairwise (fun a b => a.address ≠ b.address) entrants →
    s.length ≤ max_size →
    List.Sorted entrantLE (entrants.foldl (lotteryStep max_size) (s, acc)).1 ∧
    (entrants.foldl (lotteryStep max_size) (s, acc)).1.length =
      min (s.length + entrants.length) max_size ∧
    ∃ news, (entrants.foldl (lotteryStep max_size) (s, acc)).2 = acc ++ news ∧
      news.foldr UndoLotteryEntrant
        (entrants.foldl (lotteryStep max_size) (s, acc)).1 = s := by
  induction entrants with
  | nil =>
    intro s acc hs _ _ hlen
    refine ⟨hs, ?_, [], by simp, rfl⟩
    simp only [List.foldl_nil, List.length_nil]
    omega
  | cons e es ih =>
    intro s acc hs hnotin hpw hlen
    have hstep : lotteryStep max_size (s, acc) e =
        ((AddAddressToLottery e.key e.address_type e.address max_size s).1,
         acc ++ (AddAddressToLottery e.key e.address_type e.address
           max_size s).2.toList) := rfl
    have hs1 : List.Sorted entrantLE
        (AddAddressToLottery e.key e.address_type e.address max_size s).1 :=
      addAddressToLottery_sorted e.key e.address_type e.address max_size s hs
    have hlen1 := addAddressToLottery_length e.key e.address_type e.address
      max_size s
    have hmem1 := addAddressToLottery_addr_mem e.key e.address_type e.address
      max_size s
    have hundo := addAddressToLottery_undo e.key e.address_type e.address
      max_size s hs (hnotin e (List.mem_cons_self e es))
    have hlen1' : (AddAddressToLottery e.key e.address_type e.address
        max_size s).1.length ≤ max_size := by
      rw [hlen1]; split_ifs <;> omega
    have hnotin1 : ∀ e' ∈ es, e'.address ∉
        (AddAddressToLottery e.key e.address_type e.address
          max_size s).1.map (fun x => x.address) := by
      intro e' he' hmem
      rcases hmem1 _ hmem with heq | hmem'
      · exact absurd heq.symm ((List.pairwise_cons.1 hpw).1 e' he')
      · exact hnotin e' (List.mem_cons_of_mem e he') hmem'
    obtain ⟨hsor, hlenf, news', hacc', hrep'⟩ :=
      ih (AddAddressToLottery e.key e.address_type e.address max_size s).1
        (acc ++ (AddAddressToLottery e.key e.address_type e.address
          max_size s).2.toList)
        hs1 hnotin1 (List.pairwise_cons.1 hpw).2 hlen1'
    rw [List.foldl_cons, hstep]
    refine ⟨hsor, ?_,
      (AddAddressToLottery e.key e.address_type e.address
        max_size s).2.toList ++ news', ?_, ?_⟩
    · rw [hlenf, hlen1]
      split_ifs with h1 <;> simp only [List.length_cons] <;> omega
    · rw [hacc', List.append_assoc]
    · rw [List.foldr_append, hrep']
      cases hA2 : (AddAddressToLottery e.key e.address_type e.address
          max_size s).2 with
      | none =>
        simp only [Option.toList, List.foldr_nil]
        exact hundo.2 hA2
      | some u =>
        simp only [Option.toList, List.foldr_cons, List.foldr_nil]
        exact hundo.1 u hA2

/-- C3 (spec-modelled): adding `N > capacity` entrants with pairwise
distinct addresses one at a time to an empty reservoir leaves exactly
`capacity` entrants, and replaying all generated undo records in reverse
order restores the pre-insertion empty state. -/
theorem lotteryReservoir_fill_and_undo (max_size : Nat)
    (entrants : List LotteryEntrant)
    (hdistinct : List.Pairwise (fun a b => a.address ≠ b.address) entrants)
    (hover : max_size < entrants.length) :
    (runLottery max_size entrants).1.length = max_size ∧
    replayUndos (runLottery max_size entrants).2
      (runLottery max_size entrants).1 = [] := by
  obtain ⟨-, hlen, news, hacc, hrep⟩ := runLottery_go max_size entrants [] []
    (by simp) (by simp) hdistinct (by simp)
  constructor
  · unfold runLottery
    rw [hlen]
    simp only [List.length_nil, Nat.zero_add]
    omega
  · unfold replayUndos runLottery
    rw [hacc, List.nil_append]
    exact hrep

/-- Witness for C3: four entrants into a reservoir of capacity two; the
third evicts the minimum, the fourth is discarded; the replayed undo log
empties the reservoir. -/
theorem lotteryReservoir_fill_and_undo_witness :
    (runLottery 2 [⟨5, 1, [1]⟩, ⟨3, 1, [2]⟩, ⟨7, 1, [3]⟩,
      ⟨1, 1, [4]⟩]).1.length = 2 ∧
    replayUndos (runLottery 2 [⟨5, 1, [1]⟩, ⟨3, 1, [2]⟩, ⟨7, 1, [3]⟩,
        ⟨1, 1, [4]⟩]).2
      (runLottery 2 [⟨5, 1, [1]⟩, ⟨3, 1, [2]⟩, ⟨7, 1, [3]⟩,
        ⟨1, 1, [4]⟩]).1 = [] :=
  lotteryReservoir_fill_and_undo 2
    [⟨5, 1, [1]⟩, ⟨3, 1, [2]⟩, ⟨7, 1, [3]⟩, ⟨1, 1, [4]⟩]
    (by decide) (by decide)

end referral
